import Mathlib

/-!
Verification of the ClassPrefixer rewrite engine (src/extension.ts).

Strings are modelled as `List Char`.  JavaScript library operations used by
the source (`String.prototype.split(/\s+/)`, `startsWith`, `substring`,
`includes`, `join`, `replace`, `RegExp`) are embedded explicitly.
-/

namespace ClassPrefixer

/-- Strings are modelled as lists of characters. -/
abbrev Str := List Char

/-- The double-quote character. -/
def dq : Char := Char.ofNat 34

/-- The single-quote character. -/
def sq : Char := Char.ofNat 39

/-- The backtick character. -/
def bq : Char := Char.ofNat 96

/-- The opening-brace character. -/
def lb : Char := Char.ofNat 123

/-- The closing-brace character. -/
def rb : Char := Char.ofNat 125

/-- The backslash character. -/
def bs : Char := Char.ofNat 92

/-- Whitespace as matched by the JavaScript regular-expression class `\s`
(used both by `split(/\s+/)` in `processClasses` and by `\s*` in the
attribute patterns). -/
def isJsWs (c : Char) : Bool :=
  c.toNat = 9 || c.toNat = 10 || c.toNat = 11 || c.toNat = 12 || c.toNat = 13 ||
  c.toNat = 32 || c.toNat = 160 || c.toNat = 0x1680 ||
  (0x2000 ≤ c.toNat && c.toNat ≤ 0x200A) || c.toNat = 0x2028 || c.toNat = 0x2029 ||
  c.toNat = 0x202F || c.toNat = 0x205F || c.toNat = 0x3000 || c.toNat = 0xFEFF

mutual

/-- Helper for `splitWsRuns`: currently inside a (reversed) token `cur`. -/
def splitWsGo : Str → Str → List Str
  | [], cur => [cur.reverse]
  | c :: rest, cur =>
    if isJsWs c then cur.reverse :: splitWsSkip rest
    else splitWsGo rest (c :: cur)

/-- Helper for `splitWsRuns`: currently inside a whitespace run. -/
def splitWsSkip : Str → List Str
  | [] => [[]]
  | c :: rest =>
    if isJsWs c then splitWsSkip rest
    else splitWsGo rest [c]

end

/-- JavaScript `s.split(/\s+/)`: cut the string at each maximal run of
whitespace.  A leading or trailing whitespace run contributes an empty piece,
and the empty string splits into one empty piece. -/
def splitWsRuns (s : Str) : List Str :=
  splitWsGo s []

/-- Embedding of `processClasses` (src/extension.ts lines 441-472): split the
class string on runs of whitespace, drop empty tokens, then for each token
either add the prefix (unless the token already starts with it or is an exact
member of the skip list) or strip a leading prefix; finally join the tokens
with single spaces.  The `prefix` parameter of the source is called `pfx`
here because `prefix` is reserved in Lean. -/
def processClasses (classString : Str) (pfx : Str) (skipClasses : List Str)
    (addPrefix : Bool) : Str :=
  let classes := (splitWsRuns classString).filter (fun c => decide (0 < c.length))
  let processedClasses := classes.map (fun className =>
    if className = [] then className
    else if addPrefix then
      if pfx.isPrefixOf className then className
      else if skipClasses.contains className then className
      else pfx ++ className
    else
      if pfx.isPrefixOf className then className.drop pfx.length
      else className)
  List.intercalate [' '] processedClasses

mutual

/-- Reference tokenizer, written from the spec's words: the maximal
whitespace-free runs of the string, in order (empty tokens never arise). -/
def specTokens : Str → List Str
  | [] => []
  | c :: rest =>
    if isJsWs c then specTokens rest
    else specTokRun rest [c]

/-- Helper for `specTokens`: extending the current (reversed) run `cur`. -/
def specTokRun : Str → Str → List Str
  | [], cur => [cur.reverse]
  | c :: rest, cur =>
    if isJsWs c then cur.reverse :: specTokens rest
    else specTokRun rest (c :: cur)

end

/-- Reference per-token transformation, written from the spec's words: when
adding, leave a token unchanged if it already starts with the prefix or is an
exact member of the skip set, otherwise prepend the prefix; when removing,
strip exactly the leading prefix when present and ignore the skip set. -/
def specTokenStep (pfx : Str) (skipSet : List Str) (adding : Bool) (t : Str) : Str :=
  if adding then
    if pfx.isPrefixOf t then t
    else if skipSet.contains t then t
    else pfx ++ t
  else
    if pfx.isPrefixOf t then t.drop pfx.length
    else t

/-- Reference Token Processor, written from the spec's words: tokenize,
transform each token, and join the results with a single space, preserving
token order. -/
def specTokenProcessor (classString : Str) (pfx : Str) (skipSet : List Str)
    (adding : Bool) : Str :=
  List.intercalate [' '] ((specTokens classString).map (specTokenStep pfx skipSet adding))

/-- Embedding of the loop of `findMatchingBrace` (src/extension.ts lines
138-206).  `chars` is the text from index `i` on; `depth` is the brace depth
(a JavaScript number, so an integer); the three booleans are the mutually
exclusive string-state flags, tested in the source's order.  A backslash
inside any string state consumes the following character unconditionally. -/
def findMatchingBraceGo : Str → Nat → Int → Bool → Bool → Bool → Int
  | [], _, _, _, _, _ => -1
  | c :: rest, i, depth, inSingle, inDouble, inBacktick =>
    if inSingle then
      if c = bs then
        match rest with
        | [] => -1
        | _ :: rest' => findMatchingBraceGo rest' (i + 2) depth inSingle inDouble inBacktick
      else if c = sq then findMatchingBraceGo rest (i + 1) depth false inDouble inBacktick
      else findMatchingBraceGo rest (i + 1) depth inSingle inDouble inBacktick
    else if inDouble then
      if c = bs then
        match rest with
        | [] => -1
        | _ :: rest' => findMatchingBraceGo rest' (i + 2) depth inSingle inDouble inBacktick
      else if c = dq then findMatchingBraceGo rest (i + 1) depth inSingle false inBacktick
      else findMatchingBraceGo rest (i + 1) depth inSingle inDouble inBacktick
    else if inBacktick then
      if c = bs then
        match rest with
        | [] => -1
        | _ :: rest' => findMatchingBraceGo rest' (i + 2) depth inSingle inDouble inBacktick
      else if c = bq then findMatchingBraceGo rest (i + 1) depth inSingle inDouble false
      else findMatchingBraceGo rest (i + 1) depth inSingle inDouble inBacktick
    else
      if c = sq then findMatchingBraceGo rest (i + 1) depth true inDouble inBacktick
      else if c = dq then findMatchingBraceGo rest (i + 1) depth inSingle true inBacktick
      else if c = bq then findMatchingBraceGo rest (i + 1) depth inSingle inDouble true
      else if c = lb then findMatchingBraceGo rest (i + 1) (depth + 1) inSingle inDouble inBacktick
      else if c = rb then
        if depth - 1 = 0 then (i : Int)
        else findMatchingBraceGo rest (i + 1) (depth - 1) inSingle inDouble inBacktick
      else findMatchingBraceGo rest (i + 1) depth inSingle inDouble inBacktick

/-- Embedding of `findMatchingBrace` (src/extension.ts lines 138-206): find
the index of the matching closing brace for the opening brace at `openIndex`,
returning `-1` when there is none. -/
def findMatchingBrace (source : Str) (openIndex : Nat) : Int :=
  findMatchingBraceGo (source.drop openIndex) openIndex 0 false false false

/-- String state of the reference Brace Matcher, written from the claim's
description: plain scanning, or inside a single-quoted, double-quoted or
template-literal span. -/
inductive SpecScanMode where
  | plain
  | single
  | double
  | tpl
deriving DecidableEq

/-- Reference Brace Matcher, written from the claim's words: a depth counter
(a JavaScript number, hence an integer) starts at zero, is incremented on an
opening and decremented on a closing brace; braces inside single-quote,
double-quote or template-literal spans are ignored; a backslash inside any
such span unconditionally consumes the next character; the scan answers the
position where the depth returns to zero, and `none` (NotFound) exactly when
the text ends first. -/
def specMatchingClose : Str → Nat → Int → SpecScanMode → Option Nat
  | [], _, _, _ => none
  | c :: rest, i, depth, m =>
    match m with
    | .single =>
      if c = bs then
        match rest with
        | [] => none
        | _ :: rest' => specMatchingClose rest' (i + 2) depth .single
      else if c = sq then specMatchingClose rest (i + 1) depth .plain
      else specMatchingClose rest (i + 1) depth .single
    | .double =>
      if c = bs then
        match rest with
        | [] => none
        | _ :: rest' => specMatchingClose rest' (i + 2) depth .double
      else if c = dq then specMatchingClose rest (i + 1) depth .plain
      else specMatchingClose rest (i + 1) depth .double
    | .tpl =>
      if c = bs then
        match rest with
        | [] => none
        | _ :: rest' => specMatchingClose rest' (i + 2) depth .tpl
      else if c = bq then specMatchingClose rest (i + 1) depth .plain
      else specMatchingClose rest (i + 1) depth .tpl
    | .plain =>
      if c = sq then specMatchingClose rest (i + 1) depth .single
      else if c = dq then specMatchingClose rest (i + 1) depth .double
      else if c = bq then specMatchingClose rest (i + 1) depth .tpl
      else if c = lb then specMatchingClose rest (i + 1) (depth + 1) .plain
      else if c = rb then
        if depth - 1 = 0 then some i else specMatchingClose rest (i + 1) (depth - 1) .plain
      else specMatchingClose rest (i + 1) depth .plain

/-- Reference Brace Matcher on a whole text, with the claim's `-1` encoding
of NotFound. -/
def specBraceResult (text : Str) (openIndex : Nat) : Int :=
  match specMatchingClose (text.drop openIndex) openIndex 0 .plain with
  | some i => (i : Int)
  | none => -1

/-- The string-state flags of the source loop corresponding to a reference
mode. -/
def modeFlags : SpecScanMode → Bool × Bool × Bool
  | .plain => (false, false, false)
  | .single => (true, false, false)
  | .double => (false, true, false)
  | .tpl => (false, false, true)

/-- Embedding of the inner loop of `replaceQuotedStringsIgnoringTemplates`
(src/extension.ts lines 246-267): scan for the closing quote, collecting the
content with `\x` two-character escape sequences copied verbatim; a lone
backslash at the end of input leaves the string unterminated.  Returns the
content and the text after the closing quote, or `none` when the closing
quote is missing (the source's `j = input.length` exit). -/
def scanQuoted (quote : Char) : Str → Option (Str × Str)
  | [] => none
  | c :: rest =>
    if c = bs then
      match rest with
      | [] => none
      | d :: rest' =>
        match scanQuoted quote rest' with
        | some (content, rest'') => some (bs :: d :: content, rest'')
        | none => none
    else if c = quote then some ([], rest)
    else
      match scanQuoted quote rest with
      | some (content, rest'') => some (c :: content, rest'')
      | none => none

/-- Embedding of the outer loop of `replaceQuotedStringsIgnoringTemplates`
(src/extension.ts lines 209-287), with explicit fuel (one unit per loop
iteration; every iteration consumes at least one character).  In template
state all characters are copied through, a backslash copying the following
character as well; outside, a backtick enters template state, a quote starts
a quoted string whose content is replaced when the closing quote exists and
is otherwise emitted as just the opening quote before rescanning from the
next character. -/
def rqsGo (replacer : Str → Char → Str) : Nat → Bool → Str → Str
  | 0, _, _ => []
  | _ + 1, _, [] => []
  | fuel + 1, true, c :: rest =>
    if c = bs then
      match rest with
      | [] => [c]
      | d :: rest' => c :: d :: rqsGo replacer fuel true rest'
    else if c = bq then c :: rqsGo replacer fuel false rest
    else c :: rqsGo replacer fuel true rest
  | fuel + 1, false, c :: rest =>
    if c = bq then c :: rqsGo replacer fuel true rest
    else if c = dq ∨ c = sq then
      match scanQuoted c rest with
      | some (content, rest') =>
        c :: (replacer content c ++ (c :: rqsGo replacer fuel false rest'))
      | none => c :: rqsGo replacer fuel false rest
    else c :: rqsGo replacer fuel false rest

/-- Embedding of `replaceQuotedStringsIgnoringTemplates` (src/extension.ts
lines 209-287): replace the contents of complete single- or double-quoted
strings via `replacer`, copying template-literal spans through verbatim. -/
def replaceQuotedStringsIgnoringTemplates (input : Str) (replacer : Str → Char → Str) : Str :=
  rqsGo replacer (input.length + 1) false input

/-- A template-literal body contains no unescaped backtick (so the very next
backtick after it closes the span); a trailing lone backslash would consume
the closing backtick and is therefore also excluded. -/
def noUnescapedBacktick : Str → Bool
  | [] => true
  | c :: rest =>
    if c = bq then false
    else if c = bs then
      match rest with
      | [] => false
      | _ :: rest' => noUnescapedBacktick rest'
    else noUnescapedBacktick rest

/-- Characters matched by the JavaScript regular-expression class `\w`. -/
def isWordChar (c : Char) : Bool :=
  (Char.ofNat 97 ≤ c && c ≤ Char.ofNat 122) || (Char.ofNat 65 ≤ c && c ≤ Char.ofNat 90) ||
  (Char.ofNat 48 ≤ c && c ≤ Char.ofNat 57) || c = Char.ofNat 95

/-- Characters matched by the JavaScript regular-expression class `\d`. -/
def isDigitChar (c : Char) : Bool :=
  Char.ofNat 48 ≤ c && c ≤ Char.ofNat 57

/-- JavaScript line terminators (not matched by `.`). -/
def isLineTerminator (c : Char) : Bool :=
  c.toNat = 10 || c.toNat = 13 || c.toNat = 0x2028 || c.toNat = 0x2029

/-- One item of a regular-expression character class. -/
inductive ClsItem where
  | single (c : Char)
  | range (lo hi : Char)
  | word
  | digit
  | space
deriving DecidableEq

/-- Abstract syntax of the JavaScript regular-expression subset needed for
the patterns the extension builds (literals, `.`, character classes,
concatenation, alternation, greedy and lazy `*` — with `+` and `?` desugared
— and groups).  User-supplied fragments outside this subset are treated as
failing to compile. -/
inductive Re where
  | eps
  | chr (c : Char)
  | dot
  | cls (neg : Bool) (items : List ClsItem)
  | cat (a b : Re)
  | alt (a b : Re)
  | star (lazy : Bool) (a : Re)
  | group (idx : Nat) (a : Re)
deriving DecidableEq

/-- Does a class item match a character? -/
def clsItemMatches (c : Char) : ClsItem → Bool
  | .single d => c = d
  | .range lo hi => lo.toNat ≤ c.toNat && c.toNat ≤ hi.toNat
  | .word => isWordChar c
  | .digit => isDigitChar c
  | .space => isJsWs c

/-- Does a (possibly negated) character class match a character? -/
def clsMatches (neg : Bool) (items : List ClsItem) (c : Char) : Bool :=
  if neg then !(items.any (clsItemMatches c)) else items.any (clsItemMatches c)

/-- Size of a regular expression, used to budget the matcher's fuel. -/
def reSize : Re → Nat
  | .eps => 1
  | .chr _ => 1
  | .dot => 1
  | .cls _ _ => 1
  | .cat a b => reSize a + reSize b + 1
  | .alt a b => reSize a + reSize b + 1
  | .star _ a => reSize a + 1
  | .group _ a => reSize a + 1

/-- Parser: one atom inside a character class — either a predefined class
escape (left) or a single character (right). -/
def parseClassAtom : Str → Option ((ClsItem ⊕ Char) × Str)
  | [] => none
  | c :: rest =>
    if c = bs then
      match rest with
      | [] => none
      | e :: erest =>
        if e = 'w' then some (Sum.inl ClsItem.word, erest)
        else if e = 'd' then some (Sum.inl ClsItem.digit, erest)
        else if e = 's' then some (Sum.inl ClsItem.space, erest)
        else if e = 'W' ∨ e = 'D' ∨ e = 'S' ∨ e = 'u' ∨ e = 'x' ∨ e = 'c' ∨
            e = 'p' ∨ e = 'P' ∨ e = 'b' ∨ isDigitChar e then none
        else some (Sum.inr e, erest)
    else if c = ']' then none
    else some (Sum.inr c, rest)

/-- Parser: the items of a character class, up to the closing bracket. -/
def parseClassItems : Nat → Str → Option (List ClsItem × Str)
  | 0, _ => none
  | fuel + 1, s =>
    match s with
    | [] => none
    | c :: rest =>
      if c = ']' then some ([], rest)
      else
        match parseClassAtom s with
        | none => none
        | some (a, rest₁) =>
          match rest₁ with
          | '-' :: r2 =>
            match r2 with
            | [] => none
            | c2 :: _ =>
              if c2 = ']' then
                match parseClassItems fuel rest₁ with
                | none => none
                | some (items, restF) =>
                  some ((match a with
                         | Sum.inl i => i
                         | Sum.inr ch => ClsItem.single ch) :: items, restF)
              else
                match a with
                | Sum.inl _ => none
                | Sum.inr c1 =>
                  match parseClassAtom r2 with
                  | none => none
                  | some (Sum.inl _, _) => none
                  | some (Sum.inr cHi, r3) =>
                    if c1.toNat ≤ cHi.toNat then
                      match parseClassItems fuel r3 with
                      | none => none
                      | some (items, restF) => some (ClsItem.range c1 cHi :: items, restF)
                    else none
          | _ =>
            match parseClassItems fuel rest₁ with
            | none => none
            | some (items, restF) =>
              some ((match a with
                     | Sum.inl i => i
                     | Sum.inr ch => ClsItem.single ch) :: items, restF)

/-- Level tag of the recursive-descent parser (one function so that the
recursion is structural on the fuel and kernel-reducible). -/
inductive ParseLevel where
  | alt
  | seq
  | piece
  | atom

/-- Recursive-descent parser for the regular-expression subset: alternation
level, concatenation level (stopping at an alternation bar, a closing
parenthesis or the end), one atom with an optional `*`, `+` or `?`
quantifier (each with an optional laziness marker), and single atoms
(group, character class, escape, dot or literal; anchors, lookarounds,
backreferences and misplaced quantifiers make the whole pattern fail to
compile). -/
def parseRe : Nat → ParseLevel → Str → Nat → Option (Re × Nat × Str)
  | 0, _, _, _ => none
  | fuel + 1, .alt, s, g =>
    match parseRe fuel .seq s g with
    | none => none
    | some (a, g1, rest) =>
      match rest with
      | c :: rest1 =>
        if c = '|' then
          match parseRe fuel .alt rest1 g1 with
          | none => none
          | some (b, g2, rest2) => some (.alt a b, g2, rest2)
        else some (a, g1, rest)
      | [] => some (a, g1, [])
  | fuel + 1, .seq, s, g =>
    match s with
    | [] => some (.eps, g, [])
    | c :: _ =>
      if c = '|' ∨ c = ')' then some (.eps, g, s)
      else
        match parseRe fuel .piece s g with
        | none => none
        | some (a, g1, rest) =>
          match parseRe fuel .seq rest g1 with
          | none => none
          | some (b, g2, rest2) => some (.cat a b, g2, rest2)
  | fuel + 1, .piece, s, g =>
    match parseRe fuel .atom s g with
    | none => none
    | some (a, g1, rest) =>
      match rest with
      | q :: rest1 =>
        if q = '*' then
          match rest1 with
          | l :: rest2 =>
            if l = '?' then some (.star true a, g1, rest2)
            else some (.star false a, g1, rest1)
          | [] => some (.star false a, g1, [])
        else if q = '+' then
          match rest1 with
          | l :: rest2 =>
            if l = '?' then some (.cat a (.star true a), g1, rest2)
            else some (.cat a (.star false a), g1, rest1)
          | [] => some (.cat a (.star false a), g1, [])
        else if q = '?' then
          match rest1 with
          | l :: rest2 =>
            if l = '?' then some (.alt .eps a, g1, rest2)
            else some (.alt a .eps, g1, rest1)
          | [] => some (.alt a .eps, g1, [])
        else some (a, g1, rest)
      | [] => some (a, g1, [])
  | fuel + 1, .atom, s, g =>
    match s with
    | [] => none
    | c :: rest =>
      if c = '(' then
        match rest with
        | '?' :: ':' :: rest1 =>
          match parseRe fuel .alt rest1 g with
          | none => none
          | some (a, g1, rest2) =>
            match rest2 with
            | r :: rest3 => if r = ')' then some (a, g1, rest3) else none
            | [] => none
        | '?' :: _ => none
        | _ =>
          match parseRe fuel .alt rest (g + 1) with
          | none => none
          | some (a, g1, rest2) =>
            match rest2 with
            | r :: rest3 => if r = ')' then some (.group g a, g1, rest3) else none
            | [] => none
      else if c = '[' then
        match rest with
        | '^' :: rest1 =>
          match parseClassItems fuel rest1 with
          | none => none
          | some (items, rest2) => some (.cls true items, g, rest2)
        | _ =>
          match parseClassItems fuel rest with
          | none => none
          | some (items, rest2) => some (.cls false items, g, rest2)
      else if c = bs then
        match rest with
        | [] => none
        | e :: rest1 =>
          if e = 'w' then some (.cls false [ClsItem.word], g, rest1)
          else if e = 'W' then some (.cls true [ClsItem.word], g, rest1)
          else if e = 'd' then some (.cls false [ClsItem.digit], g, rest1)
          else if e = 'D' then some (.cls true [ClsItem.digit], g, rest1)
          else if e = 's' then some (.cls false [ClsItem.space], g, rest1)
          else if e = 'S' then some (.cls true [ClsItem.space], g, rest1)
          else if e = 'b' ∨ e = 'B' ∨ e = 'k' ∨ e = 'u' ∨ e = 'x' ∨ e = 'c' ∨
              e = 'p' ∨ e = 'P' ∨ isDigitChar e then none
          else some (.chr e, g, rest1)
      else if c = '.' then some (.dot, g, rest)
      else if c = '*' ∨ c = '+' ∨ c = '?' ∨ c = '|' ∨ c = ')' ∨ c = '^' ∨ c = '$' then none
      else some (.chr c, g, rest)

/-- Embedding of JavaScript `new RegExp` for the subset: parse the whole
pattern; any leftover input (for example an unmatched closing parenthesis)
or unsupported construct means compilation fails. -/
def compileRegex (s : Str) : Option Re :=
  match parseRe (16 * (s.length + 2)) .alt s 1 with
  | none => none
  | some (a, _, []) => some a
  | some (_, _, _ :: _) => none

/-- Backtracking matcher for the regular-expression subset, in
continuation-passing style, mirroring the JavaScript evaluation order:
alternation tries the left branch first, a greedy star tries to consume
before falling back to the continuation (a lazy star the other way round),
and a star iteration that consumed nothing terminates the loop.  `caps`
records group captures as (group index, start, end), most recent first. -/
def mtch (text : Str) : Nat → Re → Nat → List (Nat × Nat × Nat) →
    (Nat → List (Nat × Nat × Nat) → Option (Nat × List (Nat × Nat × Nat))) →
    Option (Nat × List (Nat × Nat × Nat))
  | 0, _, _, _, _ => none
  | fuel + 1, re, pos, caps, k =>
    match re with
    | .eps => k pos caps
    | .chr c =>
      match text.get? pos with
      | some c2 => if c2 = c then k (pos + 1) caps else none
      | none => none
    | .dot =>
      match text.get? pos with
      | some c2 => if isLineTerminator c2 then none else k (pos + 1) caps
      | none => none
    | .cls neg items =>
      match text.get? pos with
      | some c2 => if clsMatches neg items c2 then k (pos + 1) caps else none
      | none => none
    | .cat a b => mtch text fuel a pos caps (fun p cp => mtch text fuel b p cp k)
    | .alt a b =>
      match mtch text fuel a pos caps k with
      | some r => some r
      | none => mtch text fuel b pos caps k
    | .star lzy a =>
      if lzy then
        match k pos caps with
        | some r => some r
        | none =>
          mtch text fuel a pos caps
            (fun p cp => if p = pos then none else mtch text fuel (.star true a) p cp k)
      else
        match mtch text fuel a pos caps
            (fun p cp => if p = pos then none else mtch text fuel (.star false a) p cp k) with
        | some r => some r
        | none => k pos caps
    | .group idx a =>
      mtch text fuel a pos caps (fun p cp => k p ((idx, pos, p) :: cp))

/-- Try to match `re` at position `pos`, returning the end position and the
captures. -/
def execAt (re : Re) (text : Str) (pos : Nat) : Option (Nat × List (Nat × Nat × Nat)) :=
  mtch text ((reSize re + 2) * (text.length + 2) * 4) re pos [] (fun p caps => some (p, caps))

/-- Scan for the leftmost match at or after `pos` (the JavaScript `exec`
search), returning (start, end, captures). -/
def execSearchGo (re : Re) (text : Str) : Nat → Nat → Option (Nat × Nat × List (Nat × Nat × Nat))
  | 0, _ => none
  | fuel + 1, pos =>
    if pos > text.length then none
    else
      match execAt re text pos with
      | some (e, caps) => some (pos, e, caps)
      | none => execSearchGo re text fuel (pos + 1)

/-- Leftmost match at or after `start`. -/
def execSearch (re : Re) (text : Str) (start : Nat) : Option (Nat × Nat × List (Nat × Nat × Nat)) :=
  execSearchGo re text (text.length + 2) start

/-- Most recent capture recorded for a group index. -/
def capLookup (caps : List (Nat × Nat × Nat)) (idx : Nat) : Option (Nat × Nat) :=
  match caps with
  | [] => none
  | (i, s, e) :: rest => if i = idx then some (s, e) else capLookup rest idx

/-- The substring at offsets `[a, b)`. -/
def slice (s : Str) (a b : Nat) : Str :=
  (s.drop a).take (b - a)

/-- JavaScript `String.prototype.indexOf` (first occurrence of `search`). -/
def firstIndexOfGo (search : Str) : Str → Nat → Option Nat
  | [], i => if search.isPrefixOf [] then some i else none
  | c :: rest, i =>
    if search.isPrefixOf (c :: rest) then some i else firstIndexOfGo search rest (i + 1)

/-- JavaScript `String.prototype.indexOf` (first occurrence of `search`). -/
def firstIndexOf (s search : Str) : Option Nat :=
  firstIndexOfGo search s 0

/-- JavaScript `GetSubstitution` for a string-pattern replacement (no
capture groups): in the replacement template, `$$` inserts a dollar, `$&`
the matched text, a dollar-backquote the text before the match, a
dollar-quote the text after the match; any other dollar is literal. -/
def getSubstitutionGo (matched before after : Str) : Str → Str
  | [] => []
  | c :: rest =>
    if c = Char.ofNat 36 then
      match rest with
      | [] => [c]
      | d :: rest1 =>
        if d = Char.ofNat 36 then c :: getSubstitutionGo matched before after rest1
        else if d = Char.ofNat 38 then matched ++ getSubstitutionGo matched before after rest1
        else if d = bq then before ++ getSubstitutionGo matched before after rest1
        else if d = sq then after ++ getSubstitutionGo matched before after rest1
        else c :: d :: getSubstitutionGo matched before after rest1
    else c :: getSubstitutionGo matched before after rest

/-- JavaScript `String.prototype.replace` with a string search pattern:
replace the first occurrence of `search` (substituting dollar patterns in
the replacement), or return the string unchanged when there is none. -/
def jsReplaceFirst (s search rep : Str) : Str :=
  match firstIndexOf s search with
  | none => s
  | some i =>
    s.take i ++ getSubstitutionGo search (s.take i) (s.drop (i + search.length)) rep ++
      s.drop (i + search.length)

/-- The per-match rewrite of the direct-value pass (src/extension.ts lines
401-408 and 429-431): `match.replace(classes, processedClasses)` — replace
the first occurrence of the captured class list inside the matched text by
the Token Processor's output. -/
def directRewrite (pfx : Str) (skipClasses : List Str) (addPrefix : Bool)
    (mtched classes : Str) : Str :=
  jsReplaceFirst mtched classes (processClasses classes pfx skipClasses addPrefix)

/-- JavaScript `String.prototype.replace` with a global regular expression
and a replacement callback receiving the matched text and the first capture:
repeatedly find the leftmost match, emit the text before it and the
callback's result, and continue after the match (one position further on an
empty match). -/
def replaceMatchesGo (re : Re) (cb : Str → Str → Str) (text : Str) : Nat → Nat → Nat → Str
  | 0, pos, _ => text.drop pos
  | fuel + 1, pos, spos =>
    match execSearch re text spos with
    | none => text.drop pos
    | some (s, e, caps) =>
      let m := slice text s e
      let cls := match capLookup caps 1 with
        | some (cs, ce) => slice text cs ce
        | none => []
      slice text pos s ++ cb m cls ++
        replaceMatchesGo re cb text fuel e (if e = s then e + 1 else e)

/-- JavaScript `String.prototype.replace` with a global regular expression
and a callback. -/
def replaceMatches (re : Re) (cb : Str → Str → Str) (text : Str) : Str :=
  replaceMatchesGo re cb text (text.length + 2) 0 0

/-- The characters escaped by `escapeRegExp` (src/extension.ts lines 67 and
113) — note the source's class escapes the backtick (three times) but not
the closing square bracket. -/
def escapeRegExpChars : List Char :=
  [bs, '^', Char.ofNat 36, '.', '*', '+', '?', '(', ')', '[', bq, lb, rb, '|']

/-- Embedding of `escapeRegExp` (src/extension.ts lines 67 and 113): prefix
a backslash to every escaped character. -/
def escapeRegExp (s : Str) : Str :=
  (s.map (fun c => if c ∈ escapeRegExpChars then [bs, c] else [c])).flatten

/-- JavaScript `String.prototype.split` with a single-character separator. -/
def splitOnChar (sep : Char) : Str → List Str
  | [] => [[]]
  | c :: rest =>
    if c = sep then [] :: splitOnChar sep rest
    else
      match splitOnChar sep rest with
      | t :: ts => (c :: t) :: ts
      | [] => [[c]]

/-- Embedding of `toNameRegex` (src/extension.ts lines 68-70 and 123-124):
split the wildcard on `*`, escape each literal piece, and join the pieces
with the word-character run `[\w$-]*`. -/
def toNameRegex (wild : Str) : Str :=
  List.intercalate "[\\w$-]*".toList ((splitOnChar '*' wild).map escapeRegExp)

/-- The quote-character class of the direct-value patterns. -/
def quoteCharCls : Str := [dq, sq, bq]

/-- The pattern string of the base direct-value regular expression
(src/extension.ts line 89), with a lazy capture. -/
def basePatternStr : Str :=
  "className\\s*=\\s*[".toList ++ quoteCharCls ++ "]([^".toList ++ quoteCharCls ++
    "]*?)[".toList ++ quoteCharCls ++ "]".toList

/-- The pattern string built around an attribute-name fragment for the
direct-value pass (src/extension.ts lines 79-82 and 95-97), with a greedy
capture. -/
def customDirectPatternStr (nameRegex : Str) : Str :=
  "(?:".toList ++ nameRegex ++ ")\\s*=\\s*[".toList ++ quoteCharCls ++ "]([^".toList ++
    quoteCharCls ++ "]*)[".toList ++ quoteCharCls ++ "]".toList

/-- Embedding of the `ClassPrefixerConfig` interface (src/extension.ts lines
5-12).  The `prefix` field of the source is called `pfx` here because
`prefix` is reserved in Lean. -/
structure ClassPrefixerConfig where
  pfx : Str
  skipClasses : List Str
  autoFormat : Bool
  customPatterns : List Str
  useRegex : Bool
  customRegexPatterns : List Str

/-- Embedding of `buildPatternsFromCustom` (src/extension.ts lines 62-86):
wildcard attribute names (defaulting to `*ClassName` when the list is
empty), deduplicated, each compiled into a direct-quoted-value pattern.
Compilation of these escaped patterns always succeeds, so the `filterMap`
drops nothing. -/
def buildPatternsFromCustom (customPatterns : List Str) : List Re :=
  let names := if customPatterns ≠ [] then customPatterns else ["*ClassName".toList]
  names.eraseDups.filterMap (fun wild =>
    compileRegex (customDirectPatternStr (toNameRegex wild)))

/-- Embedding of `buildPatterns` (src/extension.ts lines 88-110): the base
`className` pattern always; in regex mode each user fragment is compiled
into a direct-value pattern, a fragment that fails to compile being dropped
with a warning (second component); otherwise the custom wildcard patterns
are appended. -/
def buildPatterns (config : ClassPrefixerConfig) : List Re × List Str :=
  let base := (compileRegex basePatternStr).toList
  if config.useRegex then
    config.customRegexPatterns.foldl
      (fun acc pattern =>
        match compileRegex (customDirectPatternStr pattern) with
        | some re => (acc.1 ++ [re], acc.2)
        | none => (acc.1, acc.2 ++ [pattern]))
      (base, [])
  else
    (base ++ buildPatternsFromCustom config.customPatterns, [])

/-- Embedding of `buildAttrNameAlternation` (src/extension.ts lines
116-135): the default name plus either the user regex fragments verbatim
(empty ones dropped) or the wildcard conversions, deduplicated and joined
into one non-capturing alternation. -/
def buildAttrNameAlternation (config : ClassPrefixerConfig) : Str :=
  let parts :=
    if config.useRegex then
      "className".toList :: config.customRegexPatterns.filter (fun p => p ≠ [])
    else
      let names := if config.customPatterns ≠ [] then config.customPatterns
        else ["*ClassName".toList]
      "className".toList :: names.map toNameRegex
  let unique := parts.eraseDups
  "(?:".toList ++ List.intercalate ['|'] unique ++ ")".toList

/-- The replacer the expression pass passes to the Quoted-String Scanner
(src/extension.ts lines 314-324): the Token Processor on the string content,
with the skip list consulted only in add mode. -/
def exprReplacer (config : ClassPrefixerConfig) (addPrefix : Bool) : Str → Char → Str :=
  fun content _ =>
    processClasses content config.pfx (if addPrefix then config.skipClasses else []) addPrefix

/-- The exec loop of `processExpressionAttributeLiterals` (src/extension.ts
lines 298-334): find the next attribute opener, locate the matching closing
brace (skipping the occurrence when there is none), rewrite the quoted
strings of the body, and continue after the closing brace.  `pos` is the
emitted-up-to offset (the source's `lastIndex` variable), `spos` the regex
scan position (the source's `startRe.lastIndex`). -/
def processExpressionAttributeLiteralsGo (re : Re) (text : Str)
    (config : ClassPrefixerConfig) (addPrefix : Bool) : Nat → Nat → Nat → Str
  | 0, pos, _ => text.drop pos
  | fuel + 1, pos, spos =>
    match execSearch re text spos with
    | none => text.drop pos
    | some (_, e, _) =>
      let openBraceIndex := e - 1
      let closeIndex := findMatchingBrace text openBraceIndex
      if closeIndex = -1 then
        processExpressionAttributeLiteralsGo re text config addPrefix fuel pos e
      else
        let close := closeIndex.toNat
        let before := slice text pos (openBraceIndex + 1)
        let body := slice text (openBraceIndex + 1) close
        let transformedBody :=
          replaceQuotedStringsIgnoringTemplates body (exprReplacer config addPrefix)
        before ++ transformedBody ++ [rb] ++
          processExpressionAttributeLiteralsGo re text config addPrefix fuel
            (close + 1) (close + 1)

/-- Embedding of `processExpressionAttributeLiterals` (src/extension.ts
lines 290-335).  The source compiles `attrAlt + "\s*=\s*\{"` with
`new RegExp`, which throws on an invalid alternation — modelled as an
`Except.error` carrying the pattern string. -/
def processExpressionAttributeLiterals (text : Str) (config : ClassPrefixerConfig)
    (addPrefix : Bool) : Except Str Str :=
  let attrAlt := buildAttrNameAlternation config
  let patStr := attrAlt ++ "\\s*=\\s*\\".toList ++ [lb]
  match compileRegex patStr with
  | none => .error patStr
  | some re =>
    .ok (processExpressionAttributeLiteralsGo re text config addPrefix (text.length + 2) 0 0)

/-- Embedding of `addPrefixToClasses` (src/extension.ts lines 393-416): the
direct-value pass over every built pattern, then the expression-value pass.
An exception escaping the expression pass (invalid user regex fragment in
the alternation) is the `Except.error` case. -/
def addPrefixToClasses (text : Str) (config : ClassPrefixerConfig) : Except Str Str :=
  let patterns := (buildPatterns config).1
  let result := patterns.foldl
    (fun result pattern =>
      replaceMatches pattern
        (fun mtched classes => directRewrite config.pfx config.skipClasses true mtched classes)
        result)
    text
  processExpressionAttributeLiterals result config true

/-- Embedding of `removePrefixFromClasses` (src/extension.ts lines 418-439):
the same two passes with the remove direction and an empty skip list. -/
def removePrefixFromClasses (text : Str) (config : ClassPrefixerConfig) : Except Str Str :=
  let patterns := (buildPatterns config).1
  let result := patterns.foldl
    (fun result pattern =>
      replaceMatches pattern
        (fun mtched classes => directRewrite config.pfx [] false mtched classes)
        result)
    text
  processExpressionAttributeLiterals result config false

/-- Decidable equality of run results, for evaluating the engine at
concrete inputs. -/
instance : DecidableEq (Except Str Str)
  | .ok a, .ok b =>
    if h : a = b then isTrue (by rw [h]) else isFalse (by simp [h])
  | .ok _, .error _ => isFalse (by simp)
  | .error _, .ok _ => isFalse (by simp)
  | .error a, .error b =>
    if h : a = b then isTrue (by rw [h]) else isFalse (by simp [h])

/-- A concrete configuration: prefix `app-`, no skip list, regex mode with
no fragments (so only the base `className` pattern is active). -/
def cfgBase : ClassPrefixerConfig :=
  { pfx := "app-".toList, skipClasses := [], autoFormat := false,
    customPatterns := [], useRegex := true, customRegexPatterns := [] }

/-- A concrete configuration in the extension's default non-regex shape:
prefix `app-` and the wildcard attribute pattern `*ClassName`. -/
def cfgDefault : ClassPrefixerConfig :=
  { pfx := "app-".toList, skipClasses := [], autoFormat := false,
    customPatterns := ["*ClassName".toList], useRegex := false, customRegexPatterns := [] }

/-- A concrete regex-mode configuration whose single fragment `(` fails to
compile. -/
def cfgInvalidFragment : ClassPrefixerConfig :=
  { pfx := "app-".toList, skipClasses := [], autoFormat := false,
    customPatterns := [], useRegex := true, customRegexPatterns := ["(".toList] }

/-- Dropping empty pieces from the JavaScript split yields exactly the
reference tokenizer (strong induction over the string length, covering both
states of the two scanners at once). -/
theorem splitFilter_eq_aux (n : Nat) : ∀ s : Str, s.length ≤ n →
    ((splitWsSkip s).filter (fun c => decide (0 < c.length)) = specTokens s ∧
     ∀ cur : Str, cur ≠ [] →
       (splitWsGo s cur).filter (fun c => decide (0 < c.length)) = specTokRun s cur) := by
  induction n with
  | zero =>
    intro s hs
    have hnil : s = [] := List.length_eq_zero.mp (Nat.le_zero.mp hs)
    subst hnil
    constructor
    · simp [splitWsSkip, specTokens]
    · intro cur hcur
      have hpos : 0 < cur.length := List.length_pos.mpr hcur
      simp [splitWsGo, specTokRun, hpos]
  | succ n ih =>
    intro s hs
    cases s with
    | nil =>
      constructor
      · simp [splitWsSkip, specTokens]
      · intro cur hcur
        have hpos : 0 < cur.length := List.length_pos.mpr hcur
        simp [splitWsGo, specTokRun, hpos]
    | cons c rest =>
      have hrest : rest.length ≤ n := by
        simpa [List.length_cons] using Nat.lt_succ_iff.mp (Nat.lt_of_lt_of_le (by simp) hs)
      constructor
      · by_cases hws : isJsWs c
        · simpa [splitWsSkip, specTokens, hws] using (ih rest hrest).1
        · simpa [splitWsSkip, specTokens, hws] using (ih rest hrest).2 [c] (by simp)
      · intro cur hcur
        by_cases hws : isJsWs c
        · have hpos : 0 < cur.length := List.length_pos.mpr hcur
          simpa [splitWsGo, specTokRun, hws, hpos] using (ih rest hrest).1
        · simpa [splitWsGo, specTokRun, hws] using (ih rest hrest).2 (c :: cur) (by simp)

/-- Dropping empty pieces from the JavaScript split yields the reference
tokenizer. -/
theorem splitWsRuns_filter_eq (s : Str) :
    (splitWsRuns s).filter (fun c => decide (0 < c.length)) = specTokens s := by
  cases s with
  | nil => simp [splitWsRuns, splitWsGo, specTokens]
  | cons c rest =>
    by_cases hws : isJsWs c
    · simpa [splitWsRuns, splitWsGo, specTokens, hws] using
        (splitFilter_eq_aux rest.length rest le_rfl).1
    · simpa [splitWsRuns, splitWsGo, specTokens, hws] using
        (splitFilter_eq_aux rest.length rest le_rfl).2 [c] (by simp)

/-- Unfolding equation for `List.intercalate` on the empty list. -/
theorem intercalate_nil (s : Str) : List.intercalate s ([] : List Str) = [] := by
  simp [List.intercalate]

/-- Unfolding equation for `List.intercalate` on a one-element list. -/
theorem intercalate_single (s : Str) (a : Str) : List.intercalate s [a] = a := by
  simp [List.intercalate]

/-- Unfolding equation for `List.intercalate` on a list with two or more
elements. -/
theorem intercalate_cons₂ (s a b : Str) (l : List Str) :
    List.intercalate s (a :: b :: l) = a ++ s ++ List.intercalate s (b :: l) := by
  simp [List.intercalate, List.intersperse, List.append_assoc]

/-- A whitespace-free tail extends the current run to the end of the input. -/
theorem specTokRun_of_wsFree (rest : Str) : ∀ cur : Str,
    (∀ c ∈ rest, isJsWs c = false) → specTokRun rest cur = [cur.reverse ++ rest] := by
  induction rest with
  | nil => intro cur _; simp [specTokRun]
  | cons c rest ih =>
    intro cur h
    have hc : isJsWs c = false := h c (by simp)
    have := ih (c :: cur) (fun d hd => h d (by simp [hd]))
    simp [specTokRun, hc, this, List.append_assoc]

/-- Scanning a whitespace-free run followed by a space emits the finished run
and continues tokenizing after the space. -/
theorem specTokRun_mid (mid : Str) : ∀ cur rest : Str,
    (∀ c ∈ mid, isJsWs c = false) →
    specTokRun (mid ++ ' ' :: rest) cur = (cur.reverse ++ mid) :: specTokens rest := by
  induction mid with
  | nil => intro cur rest _; simp [specTokRun, show isJsWs ' ' = true by decide]
  | cons c mid ih =>
    intro cur rest h
    have hc : isJsWs c = false := h c (by simp)
    have := ih (c :: cur) rest (fun d hd => h d (by simp [hd]))
    simp [specTokRun, hc, this, List.append_assoc]

/-- Tokenizing the single-space join of nonempty whitespace-free tokens
recovers exactly those tokens. -/
theorem specTokens_intercalate (ts : List Str)
    (h : ∀ t ∈ ts, t ≠ [] ∧ ∀ c ∈ t, isJsWs c = false) :
    specTokens (List.intercalate [' '] ts) = ts := by
  induction ts with
  | nil => simp [intercalate_nil, specTokens]
  | cons t ts ih =>
    obtain ⟨hne, hws⟩ := h t (by simp)
    obtain ⟨c, tl, rfl⟩ : ∃ c tl, t = c :: tl := by
      cases t with
      | nil => exact absurd rfl hne
      | cons c tl => exact ⟨c, tl, rfl⟩
    have hc : isJsWs c = false := hws c (by simp)
    have htl : ∀ d ∈ tl, isJsWs d = false := fun d hd => hws d (by simp [hd])
    cases ts with
    | nil =>
      rw [intercalate_single]
      simp [specTokens, hc, specTokRun_of_wsFree tl [c] htl]
    | cons u us =>
      rw [intercalate_cons₂]
      have : (c :: tl) ++ [' '] ++ List.intercalate [' '] (u :: us)
          = c :: (tl ++ ' ' :: List.intercalate [' '] (u :: us)) := by
        simp [List.append_assoc]
      rw [this]
      simp only [specTokens, hc, Bool.false_eq_true, if_false]
      rw [specTokRun_mid tl [c] _ htl]
      simp [ih (fun v hv => h v (by simp [hv]))]

/-- Every token produced by the reference tokenizer is nonempty and
whitespace-free. -/
theorem specTokens_props_aux (n : Nat) : ∀ s : Str, s.length ≤ n →
    ((∀ t ∈ specTokens s, t ≠ [] ∧ ∀ c ∈ t, isJsWs c = false) ∧
     ∀ cur : Str, cur ≠ [] → (∀ c ∈ cur, isJsWs c = false) →
       ∀ t ∈ specTokRun s cur, t ≠ [] ∧ ∀ c ∈ t, isJsWs c = false) := by
  induction n with
  | zero =>
    intro s hs
    have hnil : s = [] := List.length_eq_zero.mp (Nat.le_zero.mp hs)
    subst hnil
    refine ⟨by simp [specTokens], ?_⟩
    intro cur hcur hws t ht
    simp [specTokRun] at ht
    subst ht
    exact ⟨by simpa using hcur, fun c hc => hws c (by simpa using hc)⟩
  | succ n ih =>
    intro s hs
    cases s with
    | nil =>
      refine ⟨by simp [specTokens], ?_⟩
      intro cur hcur hws t ht
      simp [specTokRun] at ht
      subst ht
      exact ⟨by simpa using hcur, fun c hc => hws c (by simpa using hc)⟩
    | cons c rest =>
      have hrest : rest.length ≤ n := by
        simpa [List.length_cons] using Nat.lt_succ_iff.mp (Nat.lt_of_lt_of_le (by simp) hs)
      constructor
      · intro t ht
        by_cases hws : isJsWs c
        · exact (ih rest hrest).1 t (by simpa [specTokens, hws] using ht)
        · refine (ih rest hrest).2 [c] (by simp) ?_ t ?_
          · intro d hd
            simp at hd
            simpa [hd] using hws
          · simpa [specTokens, hws] using ht
      · intro cur hcur hcws t ht
        by_cases hws : isJsWs c
        · simp [specTokRun, hws] at ht
          rcases ht with ht | ht
          · subst ht
            exact ⟨by simpa using hcur, fun d hd => hcws d (by simpa using hd)⟩
          · exact (ih rest hrest).1 t ht
        · refine (ih rest hrest).2 (c :: cur) (by simp) ?_ t ?_
          · intro d hd
            simp at hd
            rcases hd with hd | hd
            · simpa [hd] using hws
            · exact hcws d hd
          · simpa [specTokRun, hws] using ht

/-- Every token produced by the reference tokenizer is nonempty and
whitespace-free. -/
theorem specTokens_props (s : Str) :
    ∀ t ∈ specTokens s, t ≠ [] ∧ ∀ c ∈ t, isJsWs c = false :=
  (specTokens_props_aux s.length s le_rfl).1

/-- Rewriting forms of the per-token step, with the skip test phrased as
list membership. -/
theorem specTokenStep_add_eq (pfx t : Str) (skipSet : List Str) :
    specTokenStep pfx skipSet true t =
      if pfx.isPrefixOf t then t else if t ∈ skipSet then t else pfx ++ t := by
  simp [specTokenStep, List.elem_eq_mem]

/-- Rewriting form of the per-token step in the remove direction. -/
theorem specTokenStep_remove_eq (pfx t : Str) (skipSet : List Str) :
    specTokenStep pfx skipSet false t =
      if pfx.isPrefixOf t then t.drop pfx.length else t := by
  simp [specTokenStep]

/-- The source Token Processor, seen through the reference tokenizer: it
tokenizes, applies the per-token step, and joins with single spaces. -/
theorem processClasses_spec_view (classString pfx : Str) (skipSet : List Str)
    (adding : Bool) :
    processClasses classString pfx skipSet adding =
      List.intercalate [' ']
        ((specTokens classString).map (specTokenStep pfx skipSet adding)) := by
  simp only [processClasses]
  rw [splitWsRuns_filter_eq]
  congr 1
  apply List.map_congr_left
  intro t ht
  have hne : t ≠ [] := (specTokens_props classString t ht).1
  show (if t = [] then t else _) = specTokenStep pfx skipSet adding t
  rw [if_neg hne]
  rfl

/-- C3 (confirmed): the Token Processor equals the reference definition
written from the spec: split the class string on runs of whitespace dropping
empty tokens; when adding, leave a token unchanged exactly when it already
starts with the prefix or is an exact member of the skip set and otherwise
prepend the prefix; when removing, strip exactly the leading prefix when
present and ignore the skip set; join the results with a single space,
preserving token order.  Skip-set exactness is inherited from the reference
definition, whose skip test is exact membership of the whole token. -/
theorem tokenProcessor_matches_spec (classString pfx : Str) (skipSet : List Str)
    (adding : Bool) :
    processClasses classString pfx skipSet adding =
      specTokenProcessor classString pfx skipSet adding :=
  processClasses_spec_view classString pfx skipSet adding

/-- The add-direction per-token step keeps tokens nonempty and
whitespace-free, for a whitespace-free prefix. -/
theorem specTokenStep_add_props (pfx : Str) (skipSet : List Str)
    (hp : ∀ c ∈ pfx, isJsWs c = false) (t : Str)
    (ht : t ≠ [] ∧ ∀ c ∈ t, isJsWs c = false) :
    specTokenStep pfx skipSet true t ≠ [] ∧
      ∀ c ∈ specTokenStep pfx skipSet true t, isJsWs c = false := by
  obtain ⟨hne, hws⟩ := ht
  rw [specTokenStep_add_eq]
  by_cases hpre : pfx.isPrefixOf t
  · rw [if_pos hpre]
    exact ⟨hne, hws⟩
  · rw [if_neg hpre]
    by_cases hskip : t ∈ skipSet
    · rw [if_pos hskip]
      exact ⟨hne, hws⟩
    · rw [if_neg hskip]
      refine ⟨by simp [hne], ?_⟩
      intro c hc
      rcases List.mem_append.mp hc with h | h
      · exact hp c h
      · exact hws c h

/-- C2 (corrected, amended): the add direction of the Token Processor is
idempotent for a whitespace-free prefix: re-running it on its own output
changes nothing.  (At buffer level, idempotence of `addPrefixToClasses`
fails; see the counterexample theorem for this claim.) -/
theorem addIdempotent_tokenProcessor (s pfx : Str) (skipSet : List Str)
    (hp : ∀ c ∈ pfx, isJsWs c = false) :
    processClasses (processClasses s pfx skipSet true) pfx skipSet true =
      processClasses s pfx skipSet true := by
  rw [processClasses_spec_view s, processClasses_spec_view]
  rw [specTokens_intercalate]
  · rw [List.map_map]
    congr 1
    apply List.map_congr_left
    intro t _
    show specTokenStep pfx skipSet true (specTokenStep pfx skipSet true t)
        = specTokenStep pfx skipSet true t
    by_cases hpre : pfx.isPrefixOf t
    · rw [specTokenStep_add_eq pfx t, if_pos hpre, specTokenStep_add_eq, if_pos hpre]
    · by_cases hskip : t ∈ skipSet
      · rw [specTokenStep_add_eq pfx t, if_neg hpre, if_pos hskip,
            specTokenStep_add_eq, if_neg hpre, if_pos hskip]
      · rw [specTokenStep_add_eq pfx t, if_neg hpre, if_neg hskip,
            specTokenStep_add_eq,
            if_pos (List.isPrefixOf_iff_prefix.mpr (List.prefix_append pfx t))]
  · intro t ht
    obtain ⟨u, hu, rfl⟩ := List.mem_map.mp ht
    exact specTokenStep_add_props pfx skipSet hp u (specTokens_props s u hu)

/-- C1 (corrected, amended): on a class string that is already
whitespace-normalized (its tokens joined by single spaces reproduce it) and
whose tokens contain no pre-existing prefix collisions (none starts with the
prefix), and for a whitespace-free prefix, the remove direction of the Token
Processor is a left inverse of the add direction.  (At buffer level the round
trip fails because the engine normalizes irregular whitespace; see the
counterexample theorem for this claim.) -/
theorem roundTrip_tokenProcessor (s pfx : Str) (skipSet : List Str)
    (hp : ∀ c ∈ pfx, isJsWs c = false)
    (hnorm : List.intercalate [' '] (specTokens s) = s)
    (hnp : ∀ t ∈ specTokens s, pfx.isPrefixOf t = false) :
    processClasses (processClasses s pfx skipSet true) pfx [] false = s := by
  rw [processClasses_spec_view s, processClasses_spec_view]
  rw [specTokens_intercalate]
  · rw [List.map_map]
    have hid : ((specTokens s).map
        (specTokenStep pfx [] false ∘ specTokenStep pfx skipSet true)) =
          (specTokens s).map id := by
      apply List.map_congr_left
      intro t ht
      have hpre : ¬ (pfx.isPrefixOf t = true) := by simp [hnp t ht]
      show specTokenStep pfx [] false (specTokenStep pfx skipSet true t) = t
      by_cases hskip : t ∈ skipSet
      · rw [specTokenStep_add_eq pfx t, if_neg hpre, if_pos hskip,
            specTokenStep_remove_eq, if_neg hpre]
      · rw [specTokenStep_add_eq pfx t, if_neg hpre, if_neg hskip,
            specTokenStep_remove_eq,
            if_pos (List.isPrefixOf_iff_prefix.mpr (List.prefix_append pfx t)),
            List.drop_left]
    rw [hid, List.map_id, hnorm]
  · intro t ht
    obtain ⟨u, hu, rfl⟩ := List.mem_map.mp ht
    exact specTokenStep_add_props pfx skipSet hp u (specTokens_props s u hu)

/-- Witness: the add-idempotence theorem applied at a concrete input. -/
theorem addIdempotent_tokenProcessor_witness :
    processClasses (processClasses "foo app-bar".toList "app-".toList ["bar".toList] true)
        "app-".toList ["bar".toList] true =
      processClasses "foo app-bar".toList "app-".toList ["bar".toList] true :=
  addIdempotent_tokenProcessor "foo app-bar".toList "app-".toList ["bar".toList] (by decide)

/-- Witness: the token-level round-trip theorem applied at a concrete input. -/
theorem roundTrip_tokenProcessor_witness :
    processClasses (processClasses "foo bar".toList "app-".toList ["bar".toList] true)
        "app-".toList [] false = "foo bar".toList :=
  roundTrip_tokenProcessor "foo bar".toList "app-".toList ["bar".toList]
    (by decide) (by decide) (by decide)

/-- The source brace-matching loop agrees with the reference Brace Matcher
in every string state and at every depth (strong induction on the remaining
text). -/
theorem fmb_spec_aux (n : Nat) : ∀ chars : Str, chars.length ≤ n →
    ∀ (i : Nat) (depth : Int) (m : SpecScanMode),
    findMatchingBraceGo chars i depth
        (modeFlags m).1 (modeFlags m).2.1 (modeFlags m).2.2 =
      (match specMatchingClose chars i depth m with
       | some j => (j : Int)
       | none => -1) := by
  induction n with
  | zero =>
    intro chars hc i depth m
    have : chars = [] := List.length_eq_zero.mp (Nat.le_zero.mp hc)
    subst this
    rw [findMatchingBraceGo.eq_def, specMatchingClose.eq_def]
  | succ n ih =>
    intro chars hc i depth m
    cases chars with
    | nil => rw [findMatchingBraceGo.eq_def, specMatchingClose.eq_def]
    | cons c rest =>
      have hrest : rest.length ≤ n := by
        simpa [List.length_cons] using Nat.lt_succ_iff.mp (Nat.lt_of_lt_of_le (by simp) hc)
      rw [findMatchingBraceGo.eq_def, specMatchingClose.eq_def]
      cases m with
      | single =>
        by_cases hbs : c = bs
        · subst hbs
          cases rest with
          | nil => simp [modeFlags]
          | cons d rest' =>
            have hr' : rest'.length ≤ n := le_trans (by simp) hrest
            simpa [modeFlags] using ih rest' hr' (i + 2) depth .single
        · by_cases hq : c = sq
          · subst hq
            simpa [modeFlags, show ¬ (sq = bs) by decide] using
              ih rest hrest (i + 1) depth .plain
          · simpa [modeFlags, hbs, hq] using ih rest hrest (i + 1) depth .single
      | double =>
        by_cases hbs : c = bs
        · subst hbs
          cases rest with
          | nil => simp [modeFlags]
          | cons d rest' =>
            have hr' : rest'.length ≤ n := le_trans (by simp) hrest
            simpa [modeFlags] using ih rest' hr' (i + 2) depth .double
        · by_cases hq : c = dq
          · subst hq
            simpa [modeFlags, show ¬ (dq = bs) by decide] using
              ih rest hrest (i + 1) depth .plain
          · simpa [modeFlags, hbs, hq] using ih rest hrest (i + 1) depth .double
      | tpl =>
        by_cases hbs : c = bs
        · subst hbs
          cases rest with
          | nil => simp [modeFlags]
          | cons d rest' =>
            have hr' : rest'.length ≤ n := le_trans (by simp) hrest
            simpa [modeFlags] using ih rest' hr' (i + 2) depth .tpl
        · by_cases hq : c = bq
          · subst hq
            simpa [modeFlags, show ¬ (bq = bs) by decide] using
              ih rest hrest (i + 1) depth .plain
          · simpa [modeFlags, hbs, hq] using ih rest hrest (i + 1) depth .tpl
      | plain =>
        by_cases h1 : c = sq
        · subst h1
          simpa [modeFlags] using ih rest hrest (i + 1) depth .single
        · by_cases h2 : c = dq
          · subst h2
            simpa [modeFlags, show ¬ (dq = sq) by decide] using
              ih rest hrest (i + 1) depth .double
          · by_cases h3 : c = bq
            · subst h3
              simpa [modeFlags, show ¬ (bq = sq) by decide,
                show ¬ (bq = dq) by decide] using ih rest hrest (i + 1) depth .tpl
            · by_cases h4 : c = lb
              · subst h4
                simpa [modeFlags, show ¬ (lb = sq) by decide, show ¬ (lb = dq) by decide,
                  show ¬ (lb = bq) by decide] using ih rest hrest (i + 1) (depth + 1) .plain
              · by_cases h5 : c = rb
                · subst h5
                  by_cases hone : depth - 1 = 0
                  · simp [modeFlags, show ¬ (rb = sq) by decide, show ¬ (rb = dq) by decide,
                      show ¬ (rb = bq) by decide, show ¬ (rb = lb) by decide, hone]
                  · simpa [modeFlags, show ¬ (rb = sq) by decide, show ¬ (rb = dq) by decide,
                      show ¬ (rb = bq) by decide, show ¬ (rb = lb) by decide,
                      hone] using ih rest hrest (i + 1) (depth - 1) .plain
                · simpa [modeFlags, h1, h2, h3, h4, h5] using
                    ih rest hrest (i + 1) depth .plain

/-- The source Brace Matcher agrees with the reference Brace Matcher at every
starting position. -/
theorem findMatchingBrace_eq_spec (text : Str) (openIndex : Nat) :
    findMatchingBrace text openIndex = specBraceResult text openIndex := by
  unfold findMatchingBrace specBraceResult
  simpa [modeFlags] using
    fmb_spec_aux (text.drop openIndex).length (text.drop openIndex) le_rfl openIndex 0 .plain

/-- C6 (confirmed): when `openIndex` points at an opening brace, the source
`findMatchingBrace` returns exactly the reference Brace Matcher's answer:
the index at which the depth counter (incremented on opening braces,
decremented on closing braces, suspended inside single-quote, double-quote
and template-literal spans, with a backslash inside any span consuming the
next character unconditionally) returns to zero, and `-1` exactly when the
text ends before that happens. -/
theorem braceMatcher_matches_spec (text : Str) (openIndex : Nat)
    (h : text.get? openIndex = some lb) :
    findMatchingBrace text openIndex = specBraceResult text openIndex :=
  findMatchingBrace_eq_spec text openIndex

/-- Witness: the Brace Matcher equivalence applied at a concrete input. -/
theorem braceMatcher_matches_spec_witness :
    findMatchingBrace [lb, sq, rb, sq, rb] 0 = specBraceResult [lb, sq, rb, sq, rb] 0 :=
  braceMatcher_matches_spec [lb, sq, rb, sq, rb] 0 (by decide)

/-- The text remaining after a successfully scanned quoted string is
strictly shorter than the scanned text. -/
theorem scanQuoted_rest_length (n : Nat) : ∀ s : Str, s.length ≤ n →
    ∀ (q : Char) (content rest : Str),
    scanQuoted q s = some (content, rest) → rest.length < s.length := by
  induction n with
  | zero =>
    intro s hs q content rest h
    have : s = [] := List.length_eq_zero.mp (Nat.le_zero.mp hs)
    subst this
    simp [scanQuoted] at h
  | succ n ih =>
    intro s hs q content rest h
    cases s with
    | nil => simp [scanQuoted] at h
    | cons c tail =>
      have htail : tail.length ≤ n := by
        simpa [List.length_cons] using Nat.lt_succ_iff.mp (Nat.lt_of_lt_of_le (by simp) hs)
      rw [scanQuoted.eq_def] at h
      dsimp only at h
      by_cases hbs : c = bs
      · rw [if_pos hbs] at h
        cases tail with
        | nil => simp at h
        | cons d tail' =>
          dsimp only at h
          have htail' : tail'.length ≤ n := le_trans (by simp) htail
          cases hsc : scanQuoted q tail' with
          | none => rw [hsc] at h; simp at h
          | some pr =>
            obtain ⟨content', rest'⟩ := pr
            rw [hsc] at h
            simp at h
            obtain ⟨-, hrest⟩ := h
            subst hrest
            have := ih tail' htail' q content' rest' hsc
            simp [List.length_cons]
            omega
      · rw [if_neg hbs] at h
        by_cases hq : c = q
        · rw [if_pos hq] at h
          simp at h
          obtain ⟨-, hrest⟩ := h
          subst hrest
          simp
        · rw [if_neg hq] at h
          cases hsc : scanQuoted q tail with
          | none => rw [hsc] at h; simp at h
          | some pr =>
            obtain ⟨content', rest'⟩ := pr
            rw [hsc] at h
            simp at h
            obtain ⟨-, hrest⟩ := h
            subst hrest
            have := ih tail htail q content' rest' hsc
            simp [List.length_cons]
            omega

/-- The scanner loop does not depend on the fuel, as long as the fuel
exceeds the remaining length. -/
theorem rqsGo_fuel_irrel (n : Nat) : ∀ chars : Str, chars.length ≤ n →
    ∀ (f g : Nat) (inB : Bool) (replacer : Str → Char → Str),
    chars.length < f → chars.length < g →
    rqsGo replacer f inB chars = rqsGo replacer g inB chars := by
  induction n with
  | zero =>
    intro chars hc f g inB replacer hf hg
    have : chars = [] := List.length_eq_zero.mp (Nat.le_zero.mp hc)
    subst this
    cases f with
    | zero => omega
    | succ f' =>
      cases g with
      | zero => omega
      | succ g' => cases inB <;> simp [rqsGo]
  | succ n ih =>
    intro chars hc f g inB replacer hf hg
    cases chars with
    | nil =>
      cases f with
      | zero => omega
      | succ f' =>
        cases g with
        | zero => omega
        | succ g' => cases inB <;> simp [rqsGo]
    | cons c rest =>
      have hrest : rest.length ≤ n := by
        simpa [List.length_cons] using Nat.lt_succ_iff.mp (Nat.lt_of_lt_of_le (by simp) hc)
      cases f with
      | zero => omega
      | succ f' =>
        cases g with
        | zero => omega
        | succ g' =>
          have hf' : rest.length < f' := by simp at hf; omega
          have hg' : rest.length < g' := by simp at hg; omega
          rw [rqsGo.eq_def]
          conv_rhs => rw [rqsGo.eq_def]
          cases inB with
          | true =>
            dsimp only
            by_cases hbs : c = bs
            · rw [if_pos hbs, if_pos hbs]
              cases rest with
              | nil => rfl
              | cons d rest' =>
                dsimp only
                have h1 : rest'.length ≤ n := le_trans (by simp) hrest
                have h2 : rest'.length < f' := by simp at hf'; omega
                have h3 : rest'.length < g' := by simp at hg'; omega
                rw [ih rest' h1 f' g' true replacer h2 h3]
            · rw [if_neg hbs, if_neg hbs]
              by_cases hbq : c = bq
              · rw [if_pos hbq, if_pos hbq, ih rest hrest f' g' false replacer hf' hg']
              · rw [if_neg hbq, if_neg hbq, ih rest hrest f' g' true replacer hf' hg']
          | false =>
            dsimp only
            by_cases hbq : c = bq
            · rw [if_pos hbq, if_pos hbq, ih rest hrest f' g' true replacer hf' hg']
            · rw [if_neg hbq, if_neg hbq]
              by_cases hq : c = dq ∨ c = sq
              · rw [if_pos hq, if_pos hq]
                cases hsc : scanQuoted c rest with
                | none => dsimp only; rw [ih rest hrest f' g' false replacer hf' hg']
                | some pr =>
                  obtain ⟨content, rest'⟩ := pr
                  dsimp only
                  have hlt : rest'.length < rest.length :=
                    scanQuoted_rest_length rest.length rest le_rfl c content rest' hsc
                  have h1 : rest'.length ≤ n := by omega
                  have h2 : rest'.length < f' := by omega
                  have h3 : rest'.length < g' := by omega
                  rw [ih rest' h1 f' g' false replacer h2 h3]
              · rw [if_neg hq, if_neg hq, ih rest hrest f' g' false replacer hf' hg']

/-- C7 (corrected, amended): on an unterminated quoted string the
Quoted-String Scanner emits the opening quote verbatim and resumes scanning
at the very next character.  (It does not emit the whole remainder verbatim:
a later complete quoted string of the other kind inside the remainder is
still replaced — see the counterexample theorem.)  The expression pass
invokes the scanner like this in both add and remove modes, so `replacer` is
universally quantified. -/
theorem unterminatedQuote_resumes (q : Char) (rest : Str) (replacer : Str → Char → Str)
    (hq : q = dq ∨ q = sq)
    (hnone : scanQuoted q rest = none) :
    replaceQuotedStringsIgnoringTemplates (q :: rest) replacer =
      q :: replaceQuotedStringsIgnoringTemplates rest replacer := by
  unfold replaceQuotedStringsIgnoringTemplates
  rw [rqsGo.eq_def]
  dsimp only
  have hnbq : ¬ (q = bq) := by rcases hq with h | h <;> subst h <;> decide
  rw [if_neg hnbq, if_pos hq, hnone]
  dsimp only
  rfl

/-- Witness: the unterminated-quote step theorem at a concrete input. -/
theorem unterminatedQuote_resumes_witness :
    replaceQuotedStringsIgnoringTemplates (sq :: "ab".toList)
        (fun content _ => processClasses content "app-".toList [] true) =
      sq :: replaceQuotedStringsIgnoringTemplates "ab".toList
        (fun content _ => processClasses content "app-".toList [] true) :=
  unterminatedQuote_resumes sq "ab".toList
    (fun content _ => processClasses content "app-".toList [] true)
    (Or.inr rfl) (by decide)

/-- C7 counterexample: an expression body with an unterminated single-quoted
string whose remainder contains a complete double-quoted string.  The source
scanner does not emit the text after the opening quote verbatim: the
double-quoted string is still prefixed, so the claim as stated is false. -/
theorem unterminatedQuote_counterexample :
    replaceQuotedStringsIgnoringTemplates
        (sq :: ("x ".toList ++ (dq :: ("y".toList ++ [dq]))))
        (fun content _ => processClasses content "app-".toList [] true) =
      sq :: ("x ".toList ++ (dq :: ("app-y".toList ++ [dq]))) ∧
    sq :: ("x ".toList ++ (dq :: ("app-y".toList ++ [dq]))) ≠
      sq :: ("x ".toList ++ (dq :: ("y".toList ++ [dq]))) :=
  ⟨by decide, by decide⟩

/-- Inside template state the scanner copies a backtick-free (up to escapes)
body and its closing backtick verbatim, then continues in plain state. -/
theorem rqsGo_template_copy (n : Nat) : ∀ t : Str, t.length ≤ n →
    ∀ (f : Nat) (rest : Str) (replacer : Str → Char → Str),
    t.length + rest.length + 1 < f → noUnescapedBacktick t = true →
    rqsGo replacer f true (t ++ bq :: rest) =
      t ++ bq :: rqsGo replacer (rest.length + 1) false rest := by
  induction n with
  | zero =>
    intro t ht f rest replacer hf hnub
    have : t = [] := List.length_eq_zero.mp (Nat.le_zero.mp ht)
    subst this
    simp only [List.nil_append]
    cases f with
    | zero => omega
    | succ f' =>
      rw [rqsGo.eq_def]
      dsimp only
      rw [if_neg (show ¬ (bq = bs) by decide), if_pos rfl]
      congr 1
      exact rqsGo_fuel_irrel rest.length rest le_rfl _ _ false replacer
        (by simp at hf; omega) (by simp)
  | succ n ih =>
    intro t ht f rest replacer hf hnub
    cases t with
    | nil =>
      simp only [List.nil_append]
      cases f with
      | zero => omega
      | succ f' =>
        rw [rqsGo.eq_def]
        dsimp only
        rw [if_neg (show ¬ (bq = bs) by decide), if_pos rfl]
        congr 1
        exact rqsGo_fuel_irrel rest.length rest le_rfl _ _ false replacer
          (by simp at hf; omega) (by simp)
    | cons c t' =>
      have ht' : t'.length ≤ n := by
        simpa [List.length_cons] using Nat.lt_succ_iff.mp (Nat.lt_of_lt_of_le (by simp) ht)
      rw [noUnescapedBacktick.eq_def] at hnub
      dsimp only at hnub
      by_cases hcbq : c = bq
      · rw [if_pos hcbq] at hnub
        simp at hnub
      · rw [if_neg hcbq] at hnub
        cases f with
        | zero => omega
        | succ f' =>
          rw [List.cons_append, rqsGo.eq_def]
          dsimp only
          by_cases hcbs : c = bs
          · rw [if_pos hcbs] at hnub
            cases t' with
            | nil => simp at hnub
            | cons d t'' =>
              dsimp only at hnub
              have ht'' : t''.length ≤ n := le_trans (by simp) ht'
              rw [if_pos hcbs, List.cons_append]
              dsimp only
              rw [ih t'' ht'' f' rest replacer (by simp at hf; omega) hnub]
              simp
          · rw [if_neg hcbs] at hnub
            rw [if_neg hcbs, if_neg hcbq]
            rw [ih t' ht' f' rest replacer (by simp at hf; omega) hnub]
            simp

/-- C5 (corrected, amended): the Quoted-String Scanner — which the
expression pass runs over every matched expression body, in both add and
remove modes — copies a backtick-delimited template-literal span (its body
free of unescaped backticks, hence including any quoted strings and
interpolation markers it contains) through byte-identically, and replacement
continues only after the span.  (The claim as stated over whole buffers is
false: the direct-value pass runs before the expression pass on the raw text
and can rewrite an attribute-like occurrence inside a template span — see
the counterexample theorem.) -/
theorem templateOpaque_scanner (t rest : Str) (replacer : Str → Char → Str)
    (ht : noUnescapedBacktick t = true) :
    replaceQuotedStringsIgnoringTemplates (bq :: (t ++ bq :: rest)) replacer =
      bq :: (t ++ bq :: replaceQuotedStringsIgnoringTemplates rest replacer) := by
  unfold replaceQuotedStringsIgnoringTemplates
  rw [rqsGo.eq_def]
  dsimp only
  rw [if_pos rfl]
  rw [rqsGo_template_copy t.length t le_rfl _ rest replacer (by simp) ht]

/-- Witness: the template-opacity theorem at a concrete input. -/
theorem templateOpaque_scanner_witness :
    replaceQuotedStringsIgnoringTemplates (bq :: ("a-b".toList ++ bq :: "x".toList))
        (fun content _ => processClasses content "app-".toList [] true) =
      bq :: ("a-b".toList ++ bq :: replaceQuotedStringsIgnoringTemplates "x".toList
        (fun content _ => processClasses content "app-".toList [] true)) :=
  templateOpaque_scanner "a-b".toList "x".toList
    (fun content _ => processClasses content "app-".toList [] true) (by decide)

/-- C1 counterexample: the buffer `className="a  b"` has no pre-existing
prefix collisions, yet removing after adding yields `className="a b"` — the
Token Processor normalizes the double space, so the round trip does not
return the original buffer. -/
theorem roundTrip_counterexample :
    addPrefixToClasses ("className=".toList ++ [dq] ++ "a  b".toList ++ [dq]) cfgBase =
      .ok ("className=".toList ++ [dq] ++ "app-a app-b".toList ++ [dq]) ∧
    removePrefixFromClasses ("className=".toList ++ [dq] ++ "app-a app-b".toList ++ [dq]) cfgBase =
      .ok ("className=".toList ++ [dq] ++ "a b".toList ++ [dq]) ∧
    ("className=".toList ++ [dq] ++ "a b".toList ++ [dq] : Str) ≠
      "className=".toList ++ [dq] ++ "a  b".toList ++ [dq] :=
  ⟨by decide, by decide, by decide⟩

/-- C2 counterexample: on `className="className"` the first add mangles the
attribute name (first-occurrence replacement), and the second add matches
the mangled name again and prepends another prefix, so add is not
idempotent at buffer level. -/
theorem addIdempotent_counterexample :
    addPrefixToClasses ("className=".toList ++ [dq] ++ "className".toList ++ [dq]) cfgBase =
      .ok ("app-className=".toList ++ [dq] ++ "className".toList ++ [dq]) ∧
    addPrefixToClasses ("app-className=".toList ++ [dq] ++ "className".toList ++ [dq]) cfgBase =
      .ok ("app-app-className=".toList ++ [dq] ++ "className".toList ++ [dq]) ∧
    ("app-app-className=".toList ++ [dq] ++ "className".toList ++ [dq] : Str) ≠
      "app-className=".toList ++ [dq] ++ "className".toList ++ [dq] :=
  ⟨by decide, by decide, by decide⟩

/-- C4 (code bug): at `className="className"` the direct-value pass rewrites
the match by replacing the FIRST occurrence of the captured content inside
the matched text — here the attribute name — instead of the captured
class-list region: the attribute name is mangled and the quoted content
stays unprefixed, where content-only replacement would give
`className="app-className"`. -/
theorem directPass_firstOccurrence_bug :
    addPrefixToClasses ("className=".toList ++ [dq] ++ "className".toList ++ [dq]) cfgBase =
      .ok ("app-className=".toList ++ [dq] ++ "className".toList ++ [dq]) ∧
    ("app-className=".toList ++ [dq] ++ "className".toList ++ [dq] : Str) ≠
      "className=".toList ++ [dq] ++ "app-className".toList ++ [dq] :=
  ⟨by decide, by decide⟩

/-- C5 counterexample: in `className={`className="x"`}` the inner
`className="x"` lies inside a backtick-delimited template span of the
matched expression value, yet the direct-value pass (which runs first, on
the raw text) rewrites it, so the output is not byte-identical inside the
span. -/
theorem templateOpaque_counterexample :
    addPrefixToClasses ("className=".toList ++ [lb, bq] ++ "className=".toList ++ [dq] ++
        "x".toList ++ [dq, bq, rb]) cfgBase =
      .ok ("className=".toList ++ [lb, bq] ++ "className=".toList ++ [dq] ++
        "app-x".toList ++ [dq, bq, rb]) ∧
    ("className=".toList ++ [lb, bq] ++ "className=".toList ++ [dq] ++ "app-x".toList
        ++ [dq, bq, rb] : Str) ≠
      "className=".toList ++ [lb, bq] ++ "className=".toList ++ [dq] ++ "x".toList
        ++ [dq, bq, rb] :=
  ⟨by decide, by decide⟩

/-- C8 counterexample: with the default non-regex configuration,
`removePrefixFromClasses` does rewrite the direct-quoted value of the custom
wildcard attribute `testClassName` — the claim says it is matched in add
mode only and left unchanged on removal. -/
theorem removeCustomAttr_counterexample :
    removePrefixFromClasses ("testClassName=".toList ++ [dq] ++ "app-x".toList ++ [dq])
        cfgDefault =
      .ok ("testClassName=".toList ++ [dq] ++ "x".toList ++ [dq]) ∧
    ("testClassName=".toList ++ [dq] ++ "x".toList ++ [dq] : Str) ≠
      "testClassName=".toList ++ [dq] ++ "app-x".toList ++ [dq] :=
  ⟨by decide, by decide⟩

/-- C8 (corrected, amended): both passes use the same pattern set
(`buildPatterns`), so non-regex custom wildcard attribute names are matched
in BOTH modes: `addPrefixToClasses` and `removePrefixFromClasses` each
rewrite the direct-quoted value of `testClassName` under the default
non-regex configuration. -/
theorem customAttr_bothModes :
    addPrefixToClasses ("testClassName=".toList ++ [dq] ++ "x".toList ++ [dq]) cfgDefault =
      .ok ("testClassName=".toList ++ [dq] ++ "app-x".toList ++ [dq]) ∧
    removePrefixFromClasses ("testClassName=".toList ++ [dq] ++ "app-x".toList ++ [dq])
        cfgDefault =
      .ok ("testClassName=".toList ++ [dq] ++ "x".toList ++ [dq]) :=
  ⟨by decide, by decide⟩

/-- C9 counterexample: with the invalid fragment `(` the run aborts — the
whole transformation returns an error (the uncompilable expression-pass
pattern) instead of completing both passes over the buffer. -/
theorem invalidFragment_counterexample :
    addPrefixToClasses ("className=".toList ++ [dq] ++ "x".toList ++ [dq]) cfgInvalidFragment =
      .error ("(?:className|()\\s*=\\s*\\".toList ++ [lb]) := by decide

/-- C9 (corrected, amended): an invalid regex fragment is dropped from the
direct-value pass with a warning (`buildPatterns` keeps only the base
pattern and reports the fragment), but the expression-value pass embeds the
fragment verbatim in its alternation, whose compilation fails, so the whole
run aborts with an error — for every buffer and in both modes — rather than
completing with the remaining fragments. -/
theorem invalidFragment_aborts (text : Str) :
    (buildPatterns cfgInvalidFragment).1 = (compileRegex basePatternStr).toList ∧
    (buildPatterns cfgInvalidFragment).2 = ["(".toList] ∧
    addPrefixToClasses text cfgInvalidFragment =
      .error ("(?:className|()\\s*=\\s*\\".toList ++ [lb]) ∧
    removePrefixFromClasses text cfgInvalidFragment =
      .error ("(?:className|()\\s*=\\s*\\".toList ++ [lb]) := by
  have hc : compileRegex (buildAttrNameAlternation cfgInvalidFragment ++
      "\\s*=\\s*\\".toList ++ [lb]) = none := by decide
  have herr : (buildAttrNameAlternation cfgInvalidFragment ++
      "\\s*=\\s*\\".toList ++ [lb] : Str) = "(?:className|()\\s*=\\s*\\".toList ++ [lb] := by
    decide
  refine ⟨by decide, by decide, ?_, ?_⟩
  · simp only [addPrefixToClasses, processExpressionAttributeLiterals, hc]
    exact congrArg Except.error herr
  · simp only [removePrefixFromClasses, processExpressionAttributeLiterals, hc]
    exact congrArg Except.error herr

/-- The Token Processor maps the empty class string to the empty string. -/
theorem processClasses_nil (pfx : Str) (skip : List Str) (b : Bool) :
    processClasses [] pfx skip b = [] := by
  simp [processClasses, splitWsRuns, splitWsGo, intercalate_nil]

/-- The first occurrence of the empty string is at offset zero. -/
theorem firstIndexOf_nil (m : Str) : firstIndexOf m [] = some 0 := by
  cases m <;> simp [firstIndexOf, firstIndexOfGo, List.isPrefixOf]

/-- Replacing the first occurrence of the empty string by the empty string
changes nothing. -/
theorem jsReplaceFirst_nil (m : Str) : jsReplaceFirst m [] [] = m := by
  unfold jsReplaceFirst
  rw [firstIndexOf_nil]
  simp [getSubstitutionGo]

/-- The scanner emits an empty quoted string unchanged whenever the replacer
maps empty content to itself. -/
theorem rqs_emptyQuote (q : Char) (rest : Str) (replacer : Str → Char → Str)
    (hq : q = dq ∨ q = sq) (hrepl : replacer [] q = []) :
    replaceQuotedStringsIgnoringTemplates (q :: q :: rest) replacer =
      q :: q :: replaceQuotedStringsIgnoringTemplates rest replacer := by
  have hnbs : ¬ (q = bs) := by rcases hq with h | h <;> subst h <;> decide
  have hnbq : ¬ (q = bq) := by rcases hq with h | h <;> subst h <;> decide
  have hscan : scanQuoted q (q :: rest) = some ([], rest) := by
    rw [scanQuoted.eq_def]
    simp [hnbs]
  unfold replaceQuotedStringsIgnoringTemplates
  rw [rqsGo.eq_def]
  dsimp only
  rw [if_neg hnbq, if_pos hq, hscan]
  dsimp only
  rw [hrepl]
  simp only [List.nil_append]
  congr 2
  exact rqsGo_fuel_irrel rest.length rest le_rfl _ _ false replacer
    (by simp only [List.length_cons]; omega) (by simp)

/-- C10 (confirmed): a matched attribute occurrence whose quoted value is
empty is left byte-for-byte unchanged: the Token Processor maps the empty
string to itself; the direct-value pass's per-match rewrite maps a match
with an empty capture to itself; the Quoted-String Scanner emits an empty
quoted string (either quote kind, any configuration, both directions)
unchanged; and the full pipeline leaves `className=""` unchanged in both
modes. -/
theorem emptyValue_unchanged :
    (∀ (pfx : Str) (skip : List Str) (b : Bool), processClasses [] pfx skip b = []) ∧
    (∀ (m pfx : Str) (skip : List Str) (b : Bool), directRewrite pfx skip b m [] = m) ∧
    (∀ (rest : Str) (config : ClassPrefixerConfig) (b : Bool),
      replaceQuotedStringsIgnoringTemplates (dq :: dq :: rest) (exprReplacer config b) =
        dq :: dq :: replaceQuotedStringsIgnoringTemplates rest (exprReplacer config b)) ∧
    (∀ (rest : Str) (config : ClassPrefixerConfig) (b : Bool),
      replaceQuotedStringsIgnoringTemplates (sq :: sq :: rest) (exprReplacer config b) =
        sq :: sq :: replaceQuotedStringsIgnoringTemplates rest (exprReplacer config b)) ∧
    addPrefixToClasses ("className=".toList ++ [dq, dq]) cfgBase =
      .ok ("className=".toList ++ [dq, dq]) ∧
    removePrefixFromClasses ("className=".toList ++ [dq, dq]) cfgBase =
      .ok ("className=".toList ++ [dq, dq]) := by
  refine ⟨processClasses_nil, ?_, ?_, ?_, by decide, by decide⟩
  · intro m pfx skip b
    unfold directRewrite
    rw [processClasses_nil, jsReplaceFirst_nil]
  · intro rest config b
    exact rqs_emptyQuote dq rest (exprReplacer config b) (Or.inl rfl)
      (by simp [exprReplacer, processClasses_nil])
  · intro rest config b
    exact rqs_emptyQuote sq rest (exprReplacer config b) (Or.inr rfl)
      (by simp [exprReplacer, processClasses_nil])

end ClassPrefixer

